import Mathlib

/-!
Verification of the EdgeRunner Kelly-criterion engine (src/main.rs).

The numeric core is embedded shallowly:
* string/odds parsing and the single-bet / independent-allocator arithmetic
  are embedded over `ℚ` (exact rationals, computable, decidable);
* the exact multi-outcome allocator `kelly_multi_exact`, which evaluates
  `Real.log` inside its objective, is embedded over `ℝ`;
* one small claim concerns IEEE special values (`0 * ln 0`), for which a
  four-point float-value type `FV` (finite / +inf / -inf / NaN) models the
  exact arithmetic of that expression.

Rust `f64` arithmetic is modelled as exact field arithmetic; the IEEE
special-value behaviour that a claim explicitly depends on is modelled by
`FV` (for the log-growth display) and noted in comments where the rational
convention `x / 0 = 0` replaces an IEEE infinity (the American-odds parser
at `n = 0`).
-/

set_option maxRecDepth 4000

namespace EdgeRunner

/-! ### Character-level string helpers (models of Rust `str` operations) -/

/-- Model of Rust `str::trim`: drop whitespace from both ends. -/
def trimChars (cs : List Char) : List Char :=
  ((cs.dropWhile Char.isWhitespace).reverse.dropWhile Char.isWhitespace).reverse

/-- Model of Rust `s.replace(',', "")`: remove every comma. -/
def dropCommas (cs : List Char) : List Char :=
  cs.filter (fun c => c ≠ ',')

/-- Split a character list at every occurrence of `sep` (model of
Rust `split('/')` / the single `'.'` split inside float parsing). -/
def splitOnC (sep : Char) (cs : List Char) : List (List Char) :=
  cs.foldr
    (fun c acc =>
      match acc with
      | [] => [[]]
      | g :: gs => if c = sep then [] :: g :: gs else (c :: g) :: gs)
    [[]]

/-- Numeric value of a digit string (callers check `isDigit` first). -/
def digitsVal (cs : List Char) : ℕ :=
  cs.foldl (fun a c => 10 * a + (c.toNat - 48)) 0

/-- Parse a non-empty all-digit string. -/
def parseDigits (cs : List Char) : Option ℕ :=
  if cs.isEmpty then none
  else if cs.all Char.isDigit then some (digitsVal cs) else none

/-- Model of Rust `str::parse::<i64>`: optional single sign then digits.
(i64 overflow is not modelled; no claim depends on it.) -/
def parseI64 (cs : List Char) : Option ℤ :=
  match cs with
  | [] => none
  | c :: rest =>
    if c = '+' then (parseDigits rest).map (fun n => (n : ℤ))
    else if c = '-' then (parseDigits rest).map (fun n => -(n : ℤ))
    else (parseDigits (c :: rest)).map (fun n => (n : ℤ))

/-- Unsigned body of a fixed-point numeral: `digits`, `digits.digits`,
`digits.` or `.digits`. -/
def parseFixed (cs : List Char) : Option ℚ :=
  match splitOnC '.' cs with
  | [a] => (parseDigits a).map (fun n => (n : ℚ))
  | [a, b] =>
    if a.all Char.isDigit && b.all Char.isDigit && !(a.isEmpty && b.isEmpty) then
      some ((digitsVal a : ℚ) + (digitsVal b : ℚ) / 10 ^ b.length)
    else none
  | _ => none

/-- Model of Rust `str::parse::<f64>` restricted to fixed-point numerals
with an optional sign.  (Rust additionally accepts exponent, `inf` and
`nan` forms; no claim in scope depends on those.) -/
def parseF64 (cs : List Char) : Option ℚ :=
  match cs with
  | [] => none
  | c :: rest =>
    if c = '+' then parseFixed rest
    else if c = '-' then (parseFixed rest).map Neg.neg
    else parseFixed (c :: rest)

/-! ### OddsConverter: `parse_american`, `parse_fractional`, `parse_any`
(src/main.rs lines 815-844). -/

/-- `parse_american` (main.rs 826-834): trim, strip commas, parse an
integer (with a fallback that re-parses after stripping one leading sign),
then `n > 0 ↦ 1 + n/100`, otherwise `1 + 100/(-n)`.

Note: the Rust code does NOT reject `n = 0`; it computes
`1.0 + 100.0/(-(0 as f64)) = 1 + 100/(-0.0) = -∞` (IEEE).  In this exact
model `-(0:ℚ) = 0` and `100 / 0 = 0`, so the result is `some 1`; in both
semantics the parser returns a value `≤ 1` instead of failing. -/
def parse_american (s : String) : Option ℚ :=
  let t := dropCommas (trimChars s.data)
  if t.isEmpty then none
  else
    let viaSign : Option ℤ :=
      match t with
      | c :: rest =>
        if c = '+' ∨ c = '-' then
          (parseI64 rest).map (fun v => if c = '-' then -v else v)
        else none
      | [] => none
    match (match parseI64 t with
           | some v => some v
           | none => viaSign) with
    | none => none
    | some n => if 0 < n then some (1 + (n : ℚ) / 100) else some (1 + 100 / (-(n : ℚ)))

/-- `parse_fractional` (main.rs 836-844): `"num/den"` with both parts
parsed as floats, requiring `den > 0`; returns `1 + num/den`.
(No check that `num > 0`: the numerator may be zero or negative.) -/
def parse_fractional (s : String) : Option ℚ :=
  let t := trimChars s.data
  match splitOnC '/' t with
  | [a, b] =>
    match parseF64 (trimChars a), parseF64 (trimChars b) with
    | some num, some den => if den ≤ 0 then none else some (1 + num / den)
    | _, _ => none
  | _ => none

/-- `parse_any` (main.rs 815-824): try decimal (kept only when `> 1`),
then American, then fractional. -/
def parse_any (s : String) : Option ℚ :=
  let t := trimChars s.data
  let rest : Option ℚ :=
    match parse_american (String.mk t) with
    | some dd => some dd
    | none => parse_fractional (String.mk t)
  match parseF64 t with
  | some v => if 1 < v then some v else rest
  | none => rest

/-! ### SingleBetEngine arithmetic (src/main.rs lines 87-121), over `ℚ`. -/

/-- Rust `x.clamp(0.0, 1.0)`. -/
def clamp01 (x : ℚ) : ℚ :=
  if x < 0 then 0 else if x > 1 then 1 else x

/-- Rust `x.clamp(lo, hi)`. -/
def rclamp (x lo hi : ℚ) : ℚ :=
  if x < lo then lo else if x > hi then hi else x

/-- Kelly fraction of the single-bet engine for `d > 1`
(main.rs 94-97): `b = d-1`, `q = 1-p`, `f = clamp((b*p - q)/b, 0, 1)`. -/
def kellyF (p d : ℚ) : ℚ :=
  let b := d - 1
  let q := 1 - p
  clamp01 ((b * p - q) / b)

/-! ### IEEE-value model for the displayed log growth (main.rs 118-121). -/

/-- A `f64` value as relevant to the log-growth expression: a finite real,
`+∞`, `-∞`, or NaN.  (Rounding of finite values is not modelled.) -/
inductive FV where
  | fin (x : ℝ)
  | pinf
  | ninf
  | nan

/-- IEEE `f64::ln`: `ln 0 = -∞`, `ln x = NaN` for `x < 0`. -/
noncomputable def fvLog : FV → FV
  | .fin x => if 0 < x then .fin (Real.log x) else if x = 0 then .ninf else .nan
  | .pinf => .pinf
  | .ninf => .nan
  | .nan => .nan

/-- IEEE `f64` multiplication on `FV`; in particular `0 * ±∞ = NaN`. -/
noncomputable def fvMul : FV → FV → FV
  | .nan, _ => .nan
  | _, .nan => .nan
  | .fin x, .fin y => .fin (x * y)
  | .fin x, .pinf => if 0 < x then .pinf else if x < 0 then .ninf else .nan
  | .fin x, .ninf => if 0 < x then .ninf else if x < 0 then .pinf else .nan
  | .pinf, .fin y => if 0 < y then .pinf else if y < 0 then .ninf else .nan
  | .ninf, .fin y => if 0 < y then .ninf else if y < 0 then .pinf else .nan
  | .pinf, .pinf => .pinf
  | .pinf, .ninf => .ninf
  | .ninf, .pinf => .ninf
  | .ninf, .ninf => .pinf

/-- IEEE `f64` addition on `FV`; in particular `∞ + (-∞) = NaN`. -/
noncomputable def fvAdd : FV → FV → FV
  | .nan, _ => .nan
  | _, .nan => .nan
  | .fin x, .fin y => .fin (x + y)
  | .fin _, .pinf => .pinf
  | .pinf, .fin _ => .pinf
  | .fin _, .ninf => .ninf
  | .ninf, .fin _ => .ninf
  | .pinf, .pinf => .pinf
  | .ninf, .ninf => .ninf
  | .pinf, .ninf => .nan
  | .ninf, .pinf => .nan

/-- Rust `x.clamp(0.0, 1.0)` over `ℝ`. -/
noncomputable def clamp01R (x : ℝ) : ℝ :=
  if x < 0 then 0 else if x > 1 then 1 else x

/-- The single-bet Kelly fraction over `ℝ` (same source lines 94-97 as
`kellyF`; the real-valued copy is what the allocator claims compare
against). -/
noncomputable def kellyFR (p d : ℝ) : ℝ :=
  let b := d - 1
  let q := 1 - p
  clamp01R ((b * p - q) / b)

/-- `kelly_f` as computed by `app` (main.rs 87-106): `0` when `d ≤ 1`,
else the clamped Kelly formula. -/
noncomputable def app_kelly_f (p d : ℝ) : ℝ :=
  if d ≤ 1 then 0 else kellyFR p d

/-- `g_full` (main.rs 118-121): the displayed log growth.  The guard is
`kelly_f > 0 && b_selected.is_finite()`; for real inputs `b_selected` is
finite exactly when `d > 1`.  The arithmetic of the formula itself is
IEEE (`FV`), which matters at `f = 1` where `ln(1-f) = -∞`. -/
noncomputable def g_full (p d : ℝ) : FV :=
  let f := app_kelly_f p d
  if 0 < f ∧ 1 < d then
    fvAdd (fvMul (.fin p) (fvLog (.fin (1 + f * (d - 1)))))
          (fvMul (.fin (1 - p)) (fvLog (.fin (1 - f))))
  else .fin 0

/-- Modelled from the spec's words (section 4.2): the real-valued
log-growth formula `g = p·ln(1+f·b) + (1-p)·ln(1-f)` that claim C7
compares the displayed value against. -/
noncomputable def spec_log_growth (p f b : ℝ) : ℝ :=
  p * Real.log (1 + f * b) + (1 - p) * Real.log (1 - f)

/-! ### `complement_decimal` (main.rs 887-892). -/

/-- `complement_decimal`: `d / (d-1)` for `d > 1`; the Rust code returns
the sentinel `f64::NAN` for `d ≤ 1`, modelled as `none`. -/
noncomputable def complement_decimal (d : ℝ) : Option ℝ :=
  if d ≤ 1 then none else some (d / (d - 1))

/-! ### IndependentAllocator (`multi_calc`, main.rs 216-233), over `ℚ`. -/

/-- Per-row independent Kelly fraction of `multi_calc` (main.rs 221-229):
row `(mkt, yours)` in percent; `pm = clamp(mkt/100, 1e-9, 1-1e-9)`,
`d = 1/pm`, `b = d-1`, `p = clamp(yours/100, 0, 1)`, `q = 1-p`,
`f = clamp((b*p - q)/b, 0, 1)`. -/
def multiKellyFs (rows : List (ℚ × ℚ)) : List ℚ :=
  rows.map (fun r =>
    let pm := rclamp (r.1 / 100) (1 / 10 ^ 9) (1 - 1 / 10 ^ 9)
    let d := 1 / pm
    let b := d - 1
    let p := clamp01 (r.2 / 100)
    let q := 1 - p
    clamp01 ((b * p - q) / b))

/-- `multi_calc`'s scale factor (main.rs 230): `1/sum` when the Kelly
fractions sum to more than the cap `1.0`, else `1`. -/
def multiScale (rows : List (ℚ × ℚ)) : ℚ :=
  let sumk := (multiKellyFs rows).sum
  if sumk > 1 then 1 / sumk else 1

/-! ### ExactAllocator `kelly_multi_exact` (main.rs 895-984), over `ℝ`. -/

/-- `1e-12`, the wealth-multiplier positivity threshold. -/
noncomputable def epsW : ℝ := 1 / 10 ^ 12

/-- `1e12`, the capped inverse wealth used by the gradient. -/
noncomputable def bigInv : ℝ := 10 ^ 12

/-- `1e-9`, the improvement tolerance of the line search. -/
noncomputable def tolImprove : ℝ := 1 / 10 ^ 9

/-- `1e-6`, the minimal step size. -/
noncomputable def stepMin : ℝ := 1 / 10 ^ 6

/-- Initialization (main.rs 899-910): independent per-leg Kelly fractions
(`0` when `b ≤ 0`), scaled by `cap/sum` when their sum exceeds `cap`. -/
noncomputable def kme_init (p d : List ℝ) (cap : ℝ) : List ℝ :=
  let f0 := List.zipWith
    (fun pi di =>
      let b := di - 1
      let q := 1 - pi
      if 0 < b then clamp01R ((b * pi - q) / b) else 0) p d
  let sumk := f0.sum
  if cap < sumk ∧ 0 < sumk then f0.map (fun x => x * (cap / sumk)) else f0

/-- Objective (main.rs 913-922): `Σ pᵢ ln Wᵢ` with
`Wᵢ = 1 - Σf + dᵢ fᵢ`; the code returns `f64::NEG_INFINITY` as soon as
some `Wᵢ ≤ 1e-12`, modelled as `none`. -/
noncomputable def kme_obj (p d f : List ℝ) : Option ℝ :=
  let fsum := f.sum
  let ws := List.zipWith (fun di fi => 1 - fsum + di * fi) d f
  if ws.all (fun w => decide (epsW < w)) then
    some ((List.zipWith (fun pi w => pi * Real.log w) p ws).sum)
  else none

/-- Gradient (main.rs 923-939): `gₖ = -Σⱼ pⱼ/Wⱼ + pₖ dₖ/Wₖ`, with `1/Wᵢ`
replaced by `1e12` when `Wᵢ ≤ 1e-12`. -/
noncomputable def kme_grad (p d f : List ℝ) : List ℝ :=
  let fsum := f.sum
  let invw := List.zipWith
    (fun di fi =>
      let wi := 1 - fsum + di * fi
      if wi ≤ epsW then bigInv else 1 / wi) d f
  let sOver := (List.zipWith (fun pi iw => pi * iw) p invw).sum
  List.zipWith (fun pd iw => -sOver + pd.1 * pd.2 * iw) (p.zip d) invw

/-- Descending sort (main.rs 948: `sort_by(|a,b| b.partial_cmp(a))`). -/
noncomputable def descSort (v : List ℝ) : List ℝ :=
  v.mergeSort (fun a b => decide (b ≤ a))

/-- The `rho` scan of the projection (main.rs 949-955): running prefix
sum `cssv`, threshold `t = (cssv - cap)/(j+1)`, `rho` set to the last
index `j` with `uⱼ - t > 0` (initially `-1`). -/
noncomputable def rhoAux (cap : ℝ) : List ℝ → ℝ → ℕ → ℤ → ℤ
  | [], _, _, rho => rho
  | x :: rest, cssv, j, rho =>
    let c := cssv + x
    let t := (c - cap) / ((j : ℝ) + 1)
    rhoAux cap rest c (j + 1) (if 0 < x - t then (j : ℤ) else rho)

/-- The `rho` index chosen by the scan (main.rs 956):
`if rho < 0 { 0 } else { rho as usize }`. -/
noncomputable def projRho (cap : ℝ) (u : List ℝ) : ℕ :=
  let rhoZ := rhoAux cap u 0 0 (-1)
  if rhoZ < 0 then 0 else rhoZ.toNat

/-- The subtracted threshold `theta` (main.rs 957):
`(Σ_{i ≤ rho} uᵢ - cap) / (rho + 1)`. -/
noncomputable def projTheta (cap : ℝ) (u : List ℝ) : ℝ :=
  ((u.take (projRho cap u + 1)).sum - cap) / ((projRho cap u : ℝ) + 1)

/-- Projection onto `{x ≥ 0, Σx ≤ cap}` (main.rs 941-959): clamp
negatives to `0`; if the sum still exceeds `cap`, sort descending, find
`rho` and `theta`, and map `x ↦ max (x - theta) 0`. -/
noncomputable def kme_proj (cap : ℝ) (v : List ℝ) : List ℝ :=
  let w := v.map (fun x => if x < 0 then 0 else x)
  if w.sum ≤ cap then w
  else w.map (fun x => max (x - projTheta cap (descSort w)) 0)

/-- State of the projected-gradient loop (main.rs 962-964):
current point, step size, best point and best objective so far, and a
flag recording that the `break` on `step < 1e-6` has fired. -/
structure KState where
  f : List ℝ
  step : ℝ
  bestF : List ℝ
  bestObj : Option ℝ
  done : Bool

/-- Acceptance test (main.rs 971): `o_new.is_finite() && o_new >
best_obj + 1e-9` (where `none` stands for `-∞`, which is not finite and
which every finite value strictly exceeds). -/
noncomputable def kme_accepts : Option ℝ → Option ℝ → Bool
  | some x, some b => decide (b + tolImprove < x)
  | some _, none => true
  | none, _ => false

/-- One iteration of the step loop (main.rs 965-982). -/
noncomputable def kmeStep (p d : List ℝ) (cap : ℝ) (S : KState) : KState :=
  if S.done then S
  else
    let g := kme_grad p d S.f
    let cand := kme_proj cap (List.zipWith (fun a b => a + S.step * b) S.f g)
    let onew := kme_obj p d cand
    if kme_accepts onew S.bestObj then
      { f := cand, step := min (S.step * 1.05) 1, bestF := cand,
        bestObj := onew, done := false }
    else
      let s2 := S.step * 0.5
      { f := S.f, step := s2, bestF := S.bestF, bestObj := S.bestObj,
        done := decide (s2 < stepMin) }

/-- `kelly_multi_exact` (main.rs 895-984): empty result on empty or
mismatched inputs; otherwise 300 iterations of the step loop from the
scaled independent-Kelly start, returning the best point found. -/
noncomputable def kelly_multi_exact (p d : List ℝ) (cap : ℝ) : List ℝ :=
  if p.length = 0 ∨ d.length ≠ p.length then []
  else
    let f0 := kme_init p d cap
    (Nat.iterate (kmeStep p d cap) 300
      { f := f0, step := 0.25, bestF := f0, bestObj := kme_obj p d f0,
        done := false }).bestF

/-! ### Predicates used by the invariance proofs -/

/-- Feasibility: every component nonnegative, total at most `cap`. -/
def Feas (cap : ℝ) (v : List ℝ) : Prop :=
  (∀ x ∈ v, 0 ≤ x) ∧ v.sum ≤ cap

/-- Threshold `t` at index `j` of the `rho` scan, in closed form. -/
noncomputable def tj (cap : ℝ) (u : List ℝ) (j : ℕ) : ℝ :=
  ((u.take (j + 1)).sum - cap) / ((j : ℝ) + 1)

/-- The scan condition `uⱼ - tⱼ > 0` at index `j` (with `j` in range). -/
def condj (cap : ℝ) (u : List ℝ) (j : ℕ) : Prop :=
  ∃ h : j < u.length, tj cap u j < u.get ⟨j, h⟩

/-- Loop invariant of the `rho` scan: `r` lies below the cursor, is `-1`
or a condition index, and dominates every condition index seen so far. -/
def rhoInv (cap : ℝ) (u : List ℝ) (j : ℕ) (r : ℤ) : Prop :=
  r < (j : ℤ) ∧
  (r = -1 ∨ ∃ k : ℕ, r = (k : ℤ) ∧ condj cap u k) ∧
  (∀ k : ℕ, k < j → condj cap u k → (k : ℤ) ≤ r)

/-! ## Theorems -/

/-! ### Odds parsing -/

/-- Every successful `parse_american` result is `> 1` except at the
parsed integer `0`, where the model yields exactly `1`
(`1 + 100/(-0)`; the Rust code yields `-∞` there). -/
theorem parse_american_val {s : String} {v : ℚ}
    (h : parse_american s = some v) : 1 < v ∨ v = 1 := by
  unfold parse_american at h
  dsimp only at h
  split at h
  · exact absurd h (by simp)
  · split at h
    · exact absurd h (by simp)
    · next n heq =>
      split at h
      · next hn =>
        left
        have hn1 : (1 : ℚ) ≤ (n : ℚ) := by exact_mod_cast hn
        have h2 : (0 : ℚ) < (n : ℚ) / 100 := by positivity
        simp only [Option.some.injEq] at h
        linarith [h]
      · next hn =>
        push_neg at hn
        simp only [Option.some.injEq] at h
        rcases lt_or_eq_of_le hn with hlt | heq0
        · left
          have hpos : (0 : ℚ) < -(n : ℚ) := by
            have h3 : (n : ℚ) < 0 := by exact_mod_cast hlt
            linarith
          have h4 : (0 : ℚ) < 100 / -(n : ℚ) := by positivity
          linarith [h]
        · right
          subst heq0
          rw [← h]
          norm_num

/-- Every successful `parse_fractional` result is `1 + num/den` where
`num` and `den` are exactly the float-parses of the two pieces that the
`'/'` split of the trimmed input produced, with `den > 0` (and no
constraint on the parsed numerator). -/
theorem parse_fractional_val {s : String} {v : ℚ}
    (h : parse_fractional s = some v) :
    ∃ a b : List Char, ∃ num den : ℚ,
      splitOnC '/' (trimChars s.data) = [a, b] ∧
      parseF64 (trimChars a) = some num ∧
      parseF64 (trimChars b) = some den ∧
      0 < den ∧ v = 1 + num / den := by
  unfold parse_fractional at h
  dsimp only at h
  split at h
  · next a b hsp =>
    cases hn : parseF64 (trimChars a) with
    | none => rw [hn] at h; exact absurd h (by simp)
    | some num =>
      cases hd : parseF64 (trimChars b) with
      | none => rw [hn, hd] at h; exact absurd h (by simp)
      | some den =>
        rw [hn, hd] at h
        simp only at h
        split at h
        · exact absurd h (by simp)
        · next hden =>
          push_neg at hden
          simp only [Option.some.injEq] at h
          exact ⟨a, b, num, den, hsp, hn, hd, hden, h.symm⟩
  · exact absurd h (by simp)

/-- C3, counterexample: the text `"0/1"` parses successfully (through the
fractional path) to the value `1`, which is not `> 1` — so successful
parsing does not guarantee decimal odds `> 1`. -/
theorem parse_any_not_always_gt_one :
    parse_any (r"0/1") = some 1 ∧ ¬ (1 < (1 : ℚ)) := by
  constructor
  · simp [parse_any, parse_american, parse_fractional, parseF64, parseFixed,
      parseI64, parseDigits, digitsVal, trimChars, dropCommas, splitOnC]
  · norm_num

/-- C3, amended: a successful `parse_any s = some v` either yields
`v > 1`, or the value came from the American fallback and equals `1`
(the parsed-integer-`0` case; `-∞` in IEEE), or it came from the
fractional path as `1 + num/den` where `num` and `den` are the parsed
numerator and denominator of that very input, with `den > 0` and
`num ≤ 0`. -/
theorem parse_any_val (s : String) (v : ℚ) (h : parse_any s = some v) :
    1 < v ∨
    (parse_american (String.mk (trimChars s.data)) = some v ∧ v = 1) ∨
    (parse_fractional (String.mk (trimChars s.data)) = some v ∧
      ∃ a b : List Char, ∃ num den : ℚ,
        splitOnC '/' (trimChars (String.mk (trimChars s.data)).data) = [a, b] ∧
        parseF64 (trimChars a) = some num ∧
        parseF64 (trimChars b) = some den ∧
        0 < den ∧ num ≤ 0 ∧ v = 1 + num / den) := by
  unfold parse_any at h
  have hrest :
      (match parse_american (String.mk (trimChars s.data)) with
        | some dd => some dd
        | none => parse_fractional (String.mk (trimChars s.data))) = some v →
      1 < v ∨
      (parse_american (String.mk (trimChars s.data)) = some v ∧ v = 1) ∨
      (parse_fractional (String.mk (trimChars s.data)) = some v ∧
        ∃ a b : List Char, ∃ num den : ℚ,
          splitOnC '/' (trimChars (String.mk (trimChars s.data)).data) = [a, b] ∧
          parseF64 (trimChars a) = some num ∧
          parseF64 (trimChars b) = some den ∧
          0 < den ∧ num ≤ 0 ∧ v = 1 + num / den) := by
    intro hr
    cases ha : parse_american (String.mk (trimChars s.data)) with
    | some dd =>
      rw [ha] at hr
      simp only [Option.some.injEq] at hr
      subst hr
      rcases parse_american_val ha with h1 | h1
      · exact Or.inl h1
      · exact Or.inr (Or.inl ⟨rfl, h1⟩)
    | none =>
      rw [ha] at hr
      simp only at hr
      rcases parse_fractional_val hr with ⟨a, b, num, den, hsp, hna, hnb, hden, hv⟩
      rcases le_or_lt num 0 with hnum | hnum
      · exact Or.inr (Or.inr ⟨hr, a, b, num, den, hsp, hna, hnb, hden, hnum, hv⟩)
      · left
        have : 0 < num / den := by positivity
        rw [hv]; linarith
  simp only at h
  cases hf : parseF64 (trimChars s.data) with
  | some w =>
    rw [hf] at h
    simp only at h
    split at h
    · next hw =>
      simp only [Option.some.injEq] at h
      exact Or.inl (h ▸ hw)
    · exact hrest h
  | none =>
    rw [hf] at h
    exact hrest h

/-- Witness for `parse_any_val` at the ordinary decimal text `"2.5"`. -/
theorem parse_any_val_witness :
    parse_any (r"2.5") = some (5 / 2) ∧
    (1 < (5 / 2 : ℚ) ∨
      (parse_american (String.mk (trimChars (r"2.5").data)) = some (5 / 2) ∧
        (5 / 2 : ℚ) = 1) ∨
      (parse_fractional (String.mk (trimChars (r"2.5").data)) = some (5 / 2) ∧
        ∃ a b : List Char, ∃ num den : ℚ,
          splitOnC '/'
            (trimChars (String.mk (trimChars (r"2.5").data)).data) = [a, b] ∧
          parseF64 (trimChars a) = some num ∧
          parseF64 (trimChars b) = some den ∧
          0 < den ∧ num ≤ 0 ∧ (5 / 2 : ℚ) = 1 + num / den)) := by
  have h : parse_any (r"2.5") = some (5 / 2) := by
    simp [parse_any, parse_american, parse_fractional, parseF64, parseFixed,
      parseI64, parseDigits, digitsVal, trimChars, dropCommas, splitOnC]
    norm_num
  exact ⟨h, parse_any_val _ _ h⟩

/-- C4: contrary to the spec, American parsing does NOT fail on the text
`"0"`: the Rust code computes `Some(1.0 + 100.0/(-0.0)) = Some(-∞)`;
in the exact model (`-0 = 0`, `100/0 = 0`) this is `some 1`.  Either
way a value is returned where the claim requires `None`. -/
theorem parse_american_zero_accepted : parse_american (r"0") = some 1 := by
  simp [parse_american, parseI64, parseDigits, digitsVal, trimChars,
    dropCommas]

/-! ### Single-bet Kelly fraction (claim C5) -/

/-- C5: for `p ∈ [0,1]` and `d > 1` the Kelly fraction is in `[0,1]`,
and it is `0` whenever the edge `p - 1/d` is nonpositive. -/
theorem kellyF_bounds (p d : ℚ) (hp0 : 0 ≤ p) (hp1 : p ≤ 1) (hd : 1 < d) :
    (0 ≤ kellyF p d ∧ kellyF p d ≤ 1) ∧ (p - 1 / d ≤ 0 → kellyF p d = 0) := by
  have hb : 0 < d - 1 := by linarith
  constructor
  · unfold kellyF clamp01
    dsimp only
    split
    · norm_num
    · split
      · norm_num
      · next h1 h2 => exact ⟨le_of_not_lt h1, le_of_not_lt h2⟩
  · intro hedge
    have hd0 : 0 < d := by linarith
    have hnum : (d - 1) * p - (1 - p) ≤ 0 := by
      have hpd : p * d ≤ 1 := by
        have : p ≤ 1 / d := by linarith
        calc p * d ≤ (1 / d) * d := by
              exact mul_le_mul_of_nonneg_right this (le_of_lt hd0)
          _ = 1 := by field_simp
      nlinarith
    have hratio : ((d - 1) * p - (1 - p)) / (d - 1) ≤ 0 :=
      div_nonpos_of_nonpos_of_nonneg hnum (le_of_lt hb)
    unfold kellyF clamp01
    dsimp only
    split
    · rfl
    · next hlt =>
      push_neg at hlt
      have : (d - 1) * p - (1 - p) ≤ 0 := hnum
      have heq : ((d - 1) * p - (1 - p)) / (d - 1) = 0 := le_antisymm hratio hlt
      rw [heq]
      norm_num

/-- Witness for `kellyF_bounds` at `p = 1/2`, `d = 2` (zero edge). -/
theorem kellyF_bounds_witness :
    ((0 : ℚ) ≤ 1 / 2 ∧ (1 / 2 : ℚ) ≤ 1 ∧ (1 : ℚ) < 2) ∧
    ((0 ≤ kellyF (1 / 2) 2 ∧ kellyF (1 / 2) 2 ≤ 1) ∧
      ((1 / 2 : ℚ) - 1 / 2 ≤ 0 → kellyF (1 / 2) 2 = 0)) := by
  refine ⟨by norm_num, ?_⟩
  have h := kellyF_bounds (1 / 2) 2 (by norm_num) (by norm_num) (by norm_num)
  refine ⟨h.1, fun _ => h.2 (by norm_num)⟩

/-! ### Independent allocator (claim C9) -/

/-- Sum of a list after multiplying each entry by a constant. -/
theorem sum_map_mul_const {R : Type*} [NonUnitalNonAssocSemiring R]
    (l : List R) (c : R) :
    (l.map (fun x => x * c)).sum = l.sum * c := by
  induction l with
  | nil => simp
  | cons a t ih => simp [ih, add_mul]

/-- C9: the scaled independent-Kelly recommendations sum to at most the
cap `1`, and when the unscaled sum is already `≤ 1` the scale is exactly
`1` and every recommendation equals its unscaled Kelly fraction. -/
theorem independent_alloc_cap (rows : List (ℚ × ℚ)) :
    ((multiKellyFs rows).map (fun f => f * multiScale rows)).sum ≤ 1 ∧
    ((multiKellyFs rows).sum ≤ 1 →
      multiScale rows = 1 ∧
      (multiKellyFs rows).map (fun f => f * multiScale rows) = multiKellyFs rows) := by
  set sumk := (multiKellyFs rows).sum with hsumk
  have hscale : multiScale rows = if sumk > 1 then 1 / sumk else 1 := rfl
  constructor
  · rw [sum_map_mul_const, ← hsumk, hscale]
    split
    · next hgt =>
      have : sumk ≠ 0 := by intro h0; rw [h0] at hgt; norm_num at hgt
      rw [mul_one_div, div_self this]
    · next hle => push_neg at hle; simpa using hle
  · intro hle
    have hcond : ¬ (sumk > 1) := not_lt_of_le hle
    have h1 : multiScale rows = 1 := by rw [hscale, if_neg hcond]
    refine ⟨h1, ?_⟩
    rw [h1]
    simp

/-- Witness for `independent_alloc_cap` on the app's default two-outcome
market (50/60 and 50/40, in percent). -/
theorem independent_alloc_cap_witness :
    ((multiKellyFs [(50, 60), (50, 40)]).map
        (fun f => f * multiScale [(50, 60), (50, 40)])).sum ≤ 1 ∧
    ((multiKellyFs [(50, 60), (50, 40)]).sum ≤ 1 →
      multiScale [(50, 60), (50, 40)] = 1 ∧
      (multiKellyFs [(50, 60), (50, 40)]).map
          (fun f => f * multiScale [(50, 60), (50, 40)]) =
        multiKellyFs [(50, 60), (50, 40)]) :=
  independent_alloc_cap [(50, 60), (50, 40)]

/-! ### Complement odds (claim C8) -/

/-- C8: for `d > 1` the complement is defined, `> 1`, and an involution
(`complement (complement d) = d`, exactly, over `ℝ`); for `d ≤ 1` the
code returns its NaN sentinel (modelled `none`). -/
theorem complement_involution (d : ℝ) :
    (1 < d → ∃ c, complement_decimal d = some c ∧ 1 < c ∧
      complement_decimal c = some d) ∧
    (d ≤ 1 → complement_decimal d = none) := by
  constructor
  · intro hd
    have hb : 0 < d - 1 := by linarith
    have hbne : d - 1 ≠ 0 := ne_of_gt hb
    refine ⟨d / (d - 1), ?_, ?_, ?_⟩
    · unfold complement_decimal
      rw [if_neg (not_le_of_lt hd)]
    · rw [lt_div_iff hb]; linarith
    · have hc : 1 < d / (d - 1) := by rw [lt_div_iff hb]; linarith
      unfold complement_decimal
      rw [if_neg (not_le_of_lt hc)]
      congr 1
      field_simp
  · intro hd
    unfold complement_decimal
    rw [if_pos hd]

/-- Witness for `complement_involution` at `d = 2` (complement `2`). -/
theorem complement_involution_witness :
    ∃ c, complement_decimal 2 = some c ∧ 1 < c ∧
      complement_decimal c = some 2 :=
  (complement_involution 2).1 one_lt_two

/-! ### Displayed log growth (claim C7) -/

/-- C7, counterexample: at `p = 1`, `d = 2` the Kelly fraction is `1` and
the displayed value is `1·ln 2 + 0·ln 0 = ln 2 + 0·(-∞) = NaN` under
IEEE arithmetic — not the real-valued result of the spec formula. -/
theorem g_full_nan_at_p_one :
    g_full 1 2 = FV.nan ∧
    FV.nan ≠ FV.fin (spec_log_growth 1 (app_kelly_f 1 2) (2 - 1)) := by
  have hk : app_kelly_f 1 2 = 1 := by
    unfold app_kelly_f kellyFR clamp01R
    norm_num
  constructor
  · unfold g_full
    rw [hk]
    simp only [fvLog, fvMul, fvAdd]
    norm_num
  · simp

/-- C7, amended: for `p ∈ [0,1)` and `d > 1` the displayed log growth is
the finite real value of the spec formula (in particular `0` when the
Kelly fraction is `0`); the real-formula equality fails only at `p = 1`,
where IEEE evaluation yields NaN. -/
theorem g_full_eq_formula (p d : ℝ) (hp0 : 0 ≤ p) (hp1 : p < 1)
    (hd : 1 < d) :
    g_full p d = FV.fin (spec_log_growth p (app_kelly_f p d) (d - 1)) ∧
    (app_kelly_f p d = 0 → g_full p d = FV.fin 0) := by
  have hb : 0 < d - 1 := by linarith
  have hk : app_kelly_f p d = kellyFR p d := by
    unfold app_kelly_f
    rw [if_neg (not_le_of_lt hd)]
  have hraw : ((d - 1) * p - (1 - p)) / (d - 1) < 1 := by
    rw [div_lt_one hb]
    nlinarith
  have hf0 : 0 ≤ app_kelly_f p d := by
    rw [hk]; unfold kellyFR clamp01R
    dsimp only
    split
    · norm_num
    · split
      · norm_num
      · next h1 h2 => exact le_of_not_lt h1
  have hf1 : app_kelly_f p d < 1 := by
    rw [hk]; unfold kellyFR clamp01R
    dsimp only
    split
    · norm_num
    · split
      · next h1 h2 => linarith
      · exact hraw
  constructor
  · rcases eq_or_lt_of_le hf0 with hf | hf
    · unfold g_full
      rw [if_neg (by rw [← hf]; simp)]
      unfold spec_log_growth
      rw [← hf]
      norm_num
    · unfold g_full
      rw [if_pos ⟨hf, hd⟩]
      have hw1 : 0 < 1 + app_kelly_f p d * (d - 1) := by nlinarith
      have hw2 : 0 < 1 - app_kelly_f p d := by linarith
      simp only [fvLog, if_pos hw1, if_pos hw2, fvMul, fvAdd]
      rfl
  · intro hzero
    unfold g_full
    rw [hzero]
    norm_num

/-- Witness for `g_full_eq_formula` at `p = 1/2`, `d = 2`. -/
theorem g_full_eq_formula_witness :
    ((0 : ℝ) ≤ 1 / 2 ∧ (1 / 2 : ℝ) < 1 ∧ (1 : ℝ) < 2) ∧
    (g_full (1 / 2) 2 =
        FV.fin (spec_log_growth (1 / 2) (app_kelly_f (1 / 2) 2) (2 - 1)) ∧
      (app_kelly_f (1 / 2) 2 = 0 → g_full (1 / 2) 2 = FV.fin 0)) :=
  ⟨by norm_num, g_full_eq_formula (1 / 2) 2 (by norm_num) (by norm_num)
    (by norm_num)⟩

/-! ### Simplex projection: correctness of the `rho` scan -/

/-- The descending sort is a permutation of its input. -/
theorem descSort_perm (v : List ℝ) : (descSort v).Perm v :=
  List.mergeSort_perm v _

/-- The descending sort is sorted for `≥`. -/
theorem descSort_sorted (v : List ℝ) :
    List.Pairwise (fun a b : ℝ => b ≤ a) (descSort v) := by
  have h := @List.sorted_mergeSort ℝ
    (fun a b : ℝ => decide (b ≤ a))
    (fun a b c hab hbc => by
      simp only [decide_eq_true_eq] at hab hbc ⊢
      exact le_trans hbc hab)
    (fun a b => by
      simp only [Bool.or_eq_true, decide_eq_true_eq]
      exact le_total b a)
    v
  exact h.imp (fun hab => by simpa using hab)

/-- Sum of a list after subtracting a constant from each entry. -/
theorem sum_map_sub_const (l : List ℝ) (c : ℝ) :
    (l.map (fun x => x - c)).sum = l.sum - l.length * c := by
  induction l with
  | nil => simp
  | cons a t ih =>
    simp only [List.map_cons, List.sum_cons, ih, List.length_cons]
    push_cast
    ring

/-- The `rho` scan, related to its closed-form specification: starting
from a state satisfying `rhoInv` at cursor `j`, the final accumulator is
`-1` or a condition index, and dominates every condition index. -/
theorem rhoAux_spec (cap : ℝ) (u : List ℝ) :
    ∀ (l : List ℝ) (j : ℕ) (r : ℤ), l = u.drop j → rhoInv cap u j r →
      (rhoAux cap l ((u.take j).sum) j r = -1 ∨
        ∃ k : ℕ, rhoAux cap l ((u.take j).sum) j r = (k : ℤ) ∧ condj cap u k) ∧
      (∀ k : ℕ, k < u.length → condj cap u k →
        (k : ℤ) ≤ rhoAux cap l ((u.take j).sum) j r) := by
  intro l
  induction l with
  | nil =>
    intro j r hl hinv
    have hj : u.length ≤ j := by
      by_contra hlt
      push_neg at hlt
      have := List.drop_eq_getElem_cons hlt
      rw [← hl] at this
      exact List.noConfusion this
    simp only [rhoAux]
    exact ⟨hinv.2.1, fun k hk hc => hinv.2.2 k (lt_of_lt_of_le hk hj) hc⟩
  | cons x rest ih =>
    intro j r hl hinv
    have hj : j < u.length := by
      by_contra hge
      push_neg at hge
      rw [List.drop_eq_nil_of_le hge] at hl
      exact List.noConfusion hl
    have hcons : u.drop j = u[j] :: u.drop (j + 1) :=
      List.drop_eq_getElem_cons hj
    rw [hcons] at hl
    have hx : x = u[j] := (List.cons.injEq _ _ _ _ ▸ hl).1
    have hrest : rest = u.drop (j + 1) := (List.cons.injEq _ _ _ _ ▸ hl).2
    have hsum : (u.take j).sum + x = (u.take (j + 1)).sum := by
      rw [hx, List.sum_take_succ u j hj]
    simp only [rhoAux]
    rw [hsum]
    have htj : ((u.take (j + 1)).sum - cap) / ((j : ℝ) + 1) = tj cap u j := rfl
    rw [htj]
    have step : rhoInv cap u (j + 1) (if 0 < x - tj cap u j then (j : ℤ) else r) := by
      split
      · next hpos =>
        have hget : u.get ⟨j, hj⟩ = u[j] := rfl
        have hc : condj cap u j := ⟨hj, by rw [hget, ← hx]; linarith⟩
        refine ⟨by exact_mod_cast Nat.lt_succ_self j, Or.inr ⟨j, rfl, hc⟩, ?_⟩
        intro k hk _
        have : k ≤ j := Nat.lt_succ_iff.mp hk
        exact_mod_cast this
      · next hneg =>
        push_neg at hneg
        refine ⟨?_, hinv.2.1, ?_⟩
        · calc r < (j : ℤ) := hinv.1
            _ < (j : ℤ) + 1 := by linarith
        · intro k hk hc
          rcases Nat.lt_succ_iff_lt_or_eq.mp hk with hk' | hk'
          · exact hinv.2.2 k hk' hc
          · subst hk'
            rcases hc with ⟨hb, hcc⟩
            rw [hx] at hneg
            exact absurd hcc (by simpa using hneg)
    exact ih (j + 1) _ hrest step

/-- The chosen index `projRho` satisfies the scan condition, and the
condition fails just beyond it (for `cap > 0` and clamped sum above
`cap`). -/
theorem projRho_spec (cap : ℝ) (u : List ℝ) (hcap : 0 < cap)
    (hsum : cap < u.sum) (hnn : ∀ x ∈ u, 0 ≤ x) :
    condj cap u (projRho cap u) ∧ ¬ condj cap u (projRho cap u + 1) := by
  have hne : u ≠ [] := by
    intro h
    rw [h] at hsum
    simp at hsum
    linarith
  have hlen : 0 < u.length := List.length_pos.mpr hne
  have hcond0 : condj cap u 0 := by
    refine ⟨hlen, ?_⟩
    have hget : u.get ⟨0, hlen⟩ = u[0] := rfl
    unfold tj
    rw [List.sum_take_succ u 0 hlen, List.take_zero, List.sum_nil, hget]
    push_cast
    norm_num
    linarith
  have hinv0 : rhoInv cap u 0 (-1) := by
    refine ⟨by norm_num, Or.inl rfl, ?_⟩
    intro k hk
    exact absurd hk (Nat.not_lt_zero k)
  have hspec := rhoAux_spec cap u u 0 (-1) (by simp) hinv0
  rw [List.take_zero, List.sum_nil] at hspec
  set R := rhoAux cap u 0 0 (-1) with hR
  have hR0 : (0 : ℤ) ≤ R := hspec.2 0 hlen hcond0
  rcases hspec.1 with hneg | ⟨k, hk, hck⟩
  · rw [hneg] at hR0; norm_num at hR0
  · have hrho : projRho cap u = k := by
      unfold projRho
      rw [← hR, hk]
      simp
    constructor
    · rw [hrho]; exact hck
    · rw [hrho]
      intro hc
      have := hspec.2 (k + 1) hc.1 hc
      rw [hk] at this
      omega

/-- Correctness of the Euclidean-projection threshold: on a sorted
nonnegative list whose sum exceeds `cap > 0`, subtracting `theta` and
clamping at `0` yields total exactly `cap`, and `theta` is positive. -/
theorem projTheta_spec (cap : ℝ) (u : List ℝ) (hcap : 0 < cap)
    (hsum : cap < u.sum) (hnn : ∀ x ∈ u, 0 ≤ x)
    (hsort : List.Pairwise (fun a b : ℝ => b ≤ a) u) :
    (u.map (fun x => max (x - projTheta cap u) 0)).sum = cap ∧
    0 < projTheta cap u := by
  obtain ⟨hcρ, hcρ1⟩ := projRho_spec cap u hcap hsum hnn
  obtain ⟨hρlen, hρcond⟩ := hcρ
  set ρ := projRho cap u with hρdef
  set θ := projTheta cap u with hθdef
  have hθ : θ = ((u.take (ρ + 1)).sum - cap) / ((ρ : ℝ) + 1) := rfl
  have hρpos : (0 : ℝ) < (ρ : ℝ) + 1 := by positivity
  have hθmul : ((ρ : ℝ) + 1) * θ = (u.take (ρ + 1)).sum - cap := by
    rw [hθ]
    field_simp
  have hpre : ∀ i, ∀ hi : i < u.length, i ≤ ρ → θ < u[i] := by
    intro i hi hile
    have hget : u.get ⟨ρ, hρlen⟩ = u[ρ] := rfl
    rcases eq_or_lt_of_le hile with he | hlt
    · subst he
      exact hρcond
    · have hrel : u.get ⟨ρ, hρlen⟩ ≤ u.get ⟨i, hi⟩ :=
        List.Sorted.rel_get_of_lt hsort (show (⟨i, hi⟩ : Fin u.length) < ⟨ρ, hρlen⟩ from hlt)
      have hθρ : θ < u.get ⟨ρ, hρlen⟩ := hρcond
      exact lt_of_lt_of_le hθρ hrel
  have hsuf : ∀ i, ∀ hi : i < u.length, ρ < i → u[i] ≤ θ := by
    intro i hi hgt
    have hρ1len : ρ + 1 < u.length := by omega
    have hfail : u.get ⟨ρ + 1, hρ1len⟩ ≤ tj cap u (ρ + 1) := by
      by_contra hh
      push_neg at hh
      exact hcρ1 ⟨hρ1len, hh⟩
    have hsumsucc : (u.take (ρ + 1 + 1)).sum = (u.take (ρ + 1)).sum + u[ρ + 1] :=
      List.sum_take_succ u (ρ + 1) hρ1len
    have ht : tj cap u (ρ + 1) =
        ((u.take (ρ + 1)).sum + u[ρ + 1] - cap) / ((ρ : ℝ) + 2) := by
      unfold tj
      rw [hsumsucc]
      push_cast
      ring_nf
    have hgq : u.get ⟨ρ + 1, hρ1len⟩ = u[ρ + 1] := rfl
    rw [hgq, ht] at hfail
    have h2 : u[ρ + 1] * ((ρ : ℝ) + 2) ≤ (u.take (ρ + 1)).sum + u[ρ + 1] - cap :=
      (le_div_iff (by positivity)).mp hfail
    have key : u[ρ + 1] ≤ θ := by nlinarith [hθmul]
    rcases eq_or_lt_of_le (show ρ + 1 ≤ i from hgt) with he | hlt
    · subst he
      exact key
    · have hrel : u.get ⟨i, hi⟩ ≤ u.get ⟨ρ + 1, hρ1len⟩ :=
        List.Sorted.rel_get_of_lt hsort
          (show (⟨ρ + 1, hρ1len⟩ : Fin u.length) < ⟨i, hi⟩ from hlt)
      rw [hgq] at hrel
      exact le_trans hrel key
  have hmapsplit : u.map (fun x => max (x - θ) 0) =
      (u.take (ρ + 1)).map (fun x => max (x - θ) 0) ++
      (u.drop (ρ + 1)).map (fun x => max (x - θ) 0) := by
    rw [← List.map_append, List.take_append_drop]
  have htakelen : (u.take (ρ + 1)).length = ρ + 1 := by
    rw [List.length_take]
    omega
  have htakemap : (u.take (ρ + 1)).map (fun x => max (x - θ) 0) =
      (u.take (ρ + 1)).map (fun x => x - θ) := by
    apply List.map_congr_left
    intro x hx
    obtain ⟨i, hi, hxi⟩ := List.mem_iff_getElem.mp hx
    have hiu : i < u.length := by
      rw [List.length_take] at hi
      omega
    have hgt : (u.take (ρ + 1))[i] = u[i] := List.getElem_take u
    have hθx : θ < x := by
      rw [← hxi, hgt]
      refine hpre i hiu ?_
      rw [htakelen] at hi
      omega
    exact max_eq_left (by linarith)
  have htakesum : ((u.take (ρ + 1)).map (fun x => x - θ)).sum =
      (u.take (ρ + 1)).sum - ((ρ : ℝ) + 1) * θ := by
    rw [sum_map_sub_const, htakelen]
    push_cast
    ring
  have hdropmap : ((u.drop (ρ + 1)).map (fun x => max (x - θ) 0)).sum = 0 := by
    apply List.sum_eq_zero
    intro y hy
    obtain ⟨x, hx, hxy⟩ := List.mem_map.mp hy
    obtain ⟨i, hi, hxi⟩ := List.mem_iff_getElem.mp hx
    have hlen' : i < u.length - (ρ + 1) := by
      rw [List.length_drop] at hi
      omega
    have hbound : ρ + 1 + i < u.length := by omega
    have hgd : (u.drop (ρ + 1))[i] = u[ρ + 1 + i] := List.getElem_drop u
    have hx' : x ≤ θ := by
      rw [← hxi, hgd]
      exact hsuf (ρ + 1 + i) hbound (by omega)
    rw [← hxy]
    exact max_eq_right (by linarith)
  have hsum' : (u.map (fun x => max (x - θ) 0)).sum = cap := by
    rw [hmapsplit, List.sum_append, htakemap, htakesum, hdropmap]
    rw [show (u.take (ρ + 1)).sum - ((ρ : ℝ) + 1) * θ + 0 =
      (u.take (ρ + 1)).sum - (((ρ : ℝ) + 1) * θ) from by ring, hθmul]
    ring
  refine ⟨hsum', ?_⟩
  by_contra hθle
  push_neg at hθle
  have hmono : ∀ x ∈ u, x ≤ max (x - θ) 0 := by
    intro x hx
    exact le_max_of_le_left (by linarith)
  have h2 : u.sum ≤ (u.map (fun x => max (x - θ) 0)).sum := by
    calc u.sum = (u.map id).sum := by rw [List.map_id]
      _ ≤ _ := List.sum_le_sum (fun x hx => hmono x hx)
  rw [hsum'] at h2
  linarith

/-! ### Feasibility of the projection and of the initializer -/

/-- The clamped list feeding the projection, and the positivity of its
threshold when the else branch is taken. -/
theorem kme_proj_theta (cap : ℝ) (hcap : 0 < cap) (w : List ℝ)
    (hwnn : ∀ x ∈ w, 0 ≤ x) (hgt : cap < w.sum) :
    0 < projTheta cap (descSort w) ∧
    ((descSort w).map
      (fun x => max (x - projTheta cap (descSort w)) 0)).sum = cap := by
  have hperm : (descSort w).Perm w := descSort_perm w
  have hnnu : ∀ x ∈ descSort w, 0 ≤ x := fun x hx => hwnn x (hperm.mem_iff.mp hx)
  have hsumu : (descSort w).sum = w.sum := hperm.sum_eq
  have hspec := projTheta_spec cap (descSort w) hcap (by rw [hsumu]; exact hgt)
    hnnu (descSort_sorted w)
  exact ⟨hspec.2, hspec.1⟩

/-- The projection always yields a feasible vector of the input's
length (for `cap > 0`). -/
theorem kme_proj_spec (cap : ℝ) (hcap : 0 < cap) (v : List ℝ) :
    (∀ x ∈ kme_proj cap v, 0 ≤ x) ∧ (kme_proj cap v).sum ≤ cap ∧
    (kme_proj cap v).length = v.length := by
  unfold kme_proj
  dsimp only
  set w := v.map (fun x => if x < 0 then 0 else x) with hw
  have hwnn : ∀ x ∈ w, 0 ≤ x := by
    intro x hx
    rw [hw] at hx
    obtain ⟨y, _, hxy⟩ := List.mem_map.mp hx
    rw [← hxy]
    split
    · exact le_refl 0
    · next h => exact le_of_not_lt h
  have hwlen : w.length = v.length := by rw [hw]; simp
  split
  · next hle => exact ⟨hwnn, hle, hwlen⟩
  · next hgt =>
    push_neg at hgt
    have hθ := kme_proj_theta cap hcap w hwnn hgt
    have hps : (w.map (fun x => max (x - projTheta cap (descSort w)) 0)).sum
        = cap := by
      have hperm : (descSort w).Perm w := descSort_perm w
      have := (hperm.map (fun x => max (x - projTheta cap (descSort w)) 0)).sum_eq
      rw [← this, hθ.2]
    refine ⟨?_, le_of_eq hps, by simp [hwlen]⟩
    intro x hx
    obtain ⟨y, _, hxy⟩ := List.mem_map.mp hx
    rw [← hxy]
    exact le_max_right _ _

/-- A nonpositive input component is mapped to exactly `0` by the
projection. -/
theorem kme_proj_zero (cap : ℝ) (hcap : 0 < cap) (v : List ℝ) (i : ℕ)
    (hvi : v.getD i 0 ≤ 0) : (kme_proj cap v).getD i 0 = 0 := by
  by_cases hrange : i < v.length
  · have hvi' : v[i] ≤ 0 := by
      rw [← List.getD_eq_getElem v 0 hrange]
      exact hvi
    have hwv : (v.map (fun x : ℝ => if x < 0 then 0 else x)).getD i 0 = 0 := by
      have hig0 : i < (v.map (fun x : ℝ => if x < 0 then 0 else x)).length := by
        simpa using hrange
      rw [List.getD_eq_getElem _ _ hig0, List.getElem_map]
      split
      · rfl
      · next h => push_neg at h; exact le_antisymm hvi' h
    unfold kme_proj
    dsimp only
    split
    · exact hwv
    · next hgt =>
      push_neg at hgt
      set w := v.map (fun x : ℝ => if x < 0 then 0 else x) with hw
      have hwnn : ∀ x ∈ w, 0 ≤ x := by
        intro x hx
        rw [hw] at hx
        obtain ⟨y, _, hxy⟩ := List.mem_map.mp hx
        rw [← hxy]
        split
        · exact le_refl 0
        · next h => exact le_of_not_lt h
      have hθ := (kme_proj_theta cap hcap w hwnn hgt).1
      have hiw : i < w.length := by rw [hw]; simpa using hrange
      have hig : i < (w.map
          (fun x => max (x - projTheta cap (descSort w)) 0)).length := by
        simpa using hiw
      rw [List.getD_eq_getElem _ _ hig, List.getElem_map]
      have hwi : w[i] = 0 := by
        rw [← List.getD_eq_getElem w 0 hiw]
        exact hwv
      rw [hwi]
      exact max_eq_right (by linarith)
  · push_neg at hrange
    have hlen : (kme_proj cap v).length = v.length :=
      (kme_proj_spec cap hcap v).2.2
    have : (kme_proj cap v).length ≤ i := by omega
    exact List.getD_eq_default _ _ this

/-- The clamp to `[0,1]` is nonnegative. -/
theorem clamp01R_nonneg (x : ℝ) : 0 ≤ clamp01R x := by
  unfold clamp01R
  split
  · exact le_refl 0
  · split
    · norm_num
    · next h _ => exact le_of_not_lt h

/-- Every initializer component is nonnegative (for `cap ≥ 0`). -/
theorem kme_init_nonneg (p d : List ℝ) (cap : ℝ) (hcap : 0 ≤ cap) :
    ∀ x ∈ kme_init p d cap, 0 ≤ x := by
  unfold kme_init
  dsimp only
  have hf0 : ∀ x ∈ List.zipWith
      (fun pi di =>
        let b := di - 1
        let q := 1 - pi
        if 0 < b then clamp01R ((b * pi - q) / b) else 0) p d, 0 ≤ x := by
    intro x hx
    obtain ⟨i, hi, hxi⟩ := List.mem_iff_getElem.mp hx
    rw [List.getElem_zipWith] at hxi
    rw [← hxi]
    dsimp only
    split
    · exact clamp01R_nonneg _
    · exact le_refl 0
  split
  · next hcond =>
    intro x hx
    obtain ⟨y, hy, hxy⟩ := List.mem_map.mp hx
    rw [← hxy]
    exact mul_nonneg (hf0 y hy) (div_nonneg hcap hcond.2.le)
  · exact hf0

/-- The initializer total never exceeds `cap` (for `cap > 0`). -/
theorem kme_init_sum (p d : List ℝ) (cap : ℝ) (hcap : 0 < cap) :
    (kme_init p d cap).sum ≤ cap := by
  unfold kme_init
  dsimp only
  split
  · next hcond =>
    rw [sum_map_mul_const]
    rw [mul_comm, div_mul_cancel₀ cap (ne_of_gt hcond.2)]
  · next hcond =>
    push_neg at hcond
    rcases le_or_lt (List.zipWith
        (fun pi di =>
          let b := di - 1
          let q := 1 - pi
          if 0 < b then clamp01R ((b * pi - q) / b) else 0) p d).sum cap with
      hle | hlt
    · exact hle
    · have := hcond hlt
      linarith

/-- The initializer has length `min |p| |d|`. -/
theorem kme_init_length (p d : List ℝ) (cap : ℝ) :
    (kme_init p d cap).length = min p.length d.length := by
  unfold kme_init
  dsimp only
  split <;> simp [List.length_zipWith]

/-- Invariant preservation through `Nat.iterate`. -/
theorem iterate_inv {α : Type*} (g : α → α) (P : α → Prop)
    (hg : ∀ s, P s → P (g s)) :
    ∀ (n : ℕ) (s : α), P s → P (Nat.iterate g n s) := by
  intro n
  induction n with
  | zero => intro s hs; exact hs
  | succ k ihk =>
    intro s hs
    rw [Function.iterate_succ_apply]
    exact ihk _ (hg s hs)

/-! ### Claim C2: feasibility of the exact allocator -/

/-- C2: for probabilities in `[0,1]` and any odds and `cap ∈ (0,1]`,
every component of the returned allocation is nonnegative and the
components sum to at most `cap`. -/
theorem kelly_multi_exact_feasible (p d : List ℝ) (cap : ℝ)
    (hp : ∀ x ∈ p, 0 ≤ x ∧ x ≤ 1) (hcap0 : 0 < cap) (hcap1 : cap ≤ 1) :
    (∀ x ∈ kelly_multi_exact p d cap, 0 ≤ x) ∧
    (kelly_multi_exact p d cap).sum ≤ cap := by
  unfold kelly_multi_exact
  split
  · refine ⟨?_, ?_⟩
    · intro x hx
      simp at hx
    · simp
      linarith
  · dsimp only
    have hstep : ∀ S : KState, Feas cap S.bestF →
        Feas cap ((kmeStep p d cap) S).bestF := by
      intro S hS
      unfold kmeStep
      dsimp only
      split
      · exact hS
      · split
        · exact ⟨(kme_proj_spec cap hcap0 _).1, (kme_proj_spec cap hcap0 _).2.1⟩
        · exact hS
    have hbase : Feas cap (kme_init p d cap) :=
      ⟨kme_init_nonneg p d cap hcap0.le, kme_init_sum p d cap hcap0⟩
    exact iterate_inv (kmeStep p d cap) (fun S => Feas cap S.bestF) hstep 300 _
      hbase

/-- Witness for `kelly_multi_exact_feasible` at `p = [1/2]`, `d = [2]`,
`cap = 1`. -/
theorem kelly_multi_exact_feasible_witness :
    ((∀ x ∈ ([1 / 2] : List ℝ), 0 ≤ x ∧ x ≤ 1) ∧ (0 : ℝ) < 1 ∧ (1 : ℝ) ≤ 1) ∧
    ((∀ x ∈ kelly_multi_exact [1 / 2] [2] 1, 0 ≤ x) ∧
      (kelly_multi_exact [1 / 2] [2] 1).sum ≤ 1) := by
  have hhyp : ∀ x ∈ ([1 / 2] : List ℝ), 0 ≤ x ∧ x ≤ 1 := by
    intro x hx
    simp at hx
    subst hx
    norm_num
  exact ⟨⟨hhyp, one_pos, le_refl 1⟩,
    kelly_multi_exact_feasible [1 / 2] [2] 1 hhyp one_pos (le_refl 1)⟩

/-! ### Claim C6: a leg with `d ≤ 1` is pinned at `0` -/

/-- Length of the projection output. -/
theorem kme_proj_length (cap : ℝ) (v : List ℝ) :
    (kme_proj cap v).length = v.length := by
  unfold kme_proj
  dsimp only
  split <;> simp

/-- Length of the gradient. -/
theorem kme_grad_length (p d f : List ℝ) :
    (kme_grad p d f).length =
      min (min p.length d.length) (min d.length f.length) := by
  unfold kme_grad
  dsimp only
  simp [List.length_zipWith, List.length_zip]

/-- For a leg with `dᵢ ≤ 1` and nonnegative probabilities, the gradient
component `i` is nonpositive: `-Σⱼ pⱼ/Wⱼ + pᵢdᵢ/Wᵢ ≤ pᵢ(dᵢ-1)/Wᵢ ≤ 0`. -/
theorem kme_grad_nonpos (p d f : List ℝ) (hp : ∀ x ∈ p, 0 ≤ x)
    (i : ℕ) (hip : i < p.length) (hid : i < d.length) (hif : i < f.length)
    (hd : d.getD i 0 ≤ 1) :
    (kme_grad p d f).getD i 0 ≤ 0 := by
  unfold kme_grad
  dsimp only
  set invw := List.zipWith
    (fun di fi =>
      let wi := 1 - f.sum + di * fi
      if wi ≤ epsW then bigInv else 1 / wi) d f with hinvw
  have hinvlen : invw.length = min d.length f.length := by
    rw [hinvw]
    simp [List.length_zipWith]
  have hinv_posD : ∀ j, j < d.length → j < f.length → 0 < invw.getD j 0 := by
    intro j hjd hjf
    rw [hinvw]
    have hb : j < (List.zipWith
        (fun di fi =>
          let wi := 1 - f.sum + di * fi
          if wi ≤ epsW then bigInv else 1 / wi) d f).length := by
      rw [List.length_zipWith]
      omega
    rw [List.getD_eq_getElem _ _ hb, List.getElem_zipWith]
    dsimp only
    split
    · unfold bigInv
      positivity
    · next h =>
      push_neg at h
      have hw : (0 : ℝ) < 1 - f.sum + d[j] * f[j] := by
        have hε : (0 : ℝ) < epsW := by unfold epsW; positivity
        linarith
      positivity
  have hinv_pos : ∀ j, ∀ hj : j < invw.length, 0 < invw[j] := by
    intro j hj
    have hjd : j < d.length := by
      rw [hinvlen] at hj
      omega
    have hjf : j < f.length := by
      rw [hinvlen] at hj
      omega
    have h := hinv_posD j hjd hjf
    rw [List.getD_eq_getElem _ _ hj] at h
    exact h
  have hii : i < invw.length := by
    rw [hinvlen]
    omega
  have hterms : ∀ x ∈ List.zipWith (fun pi iw => pi * iw) p invw, 0 ≤ x := by
    intro x hx
    obtain ⟨j, hj, hxj⟩ := List.mem_iff_getElem.mp hx
    have hjp : j < p.length := by
      rw [List.length_zipWith] at hj
      omega
    have hji : j < invw.length := by
      rw [List.length_zipWith] at hj
      omega
    rw [List.getElem_zipWith] at hxj
    rw [← hxj]
    exact mul_nonneg (hp _ (List.getElem_mem hjp)) (hinv_pos j hji).le
  have hmem : p[i] * invw[i] ∈ List.zipWith (fun pi iw => pi * iw) p invw := by
    have hiz : i < (List.zipWith (fun pi iw => pi * iw) p invw).length := by
      rw [List.length_zipWith]
      omega
    have heq : (List.zipWith (fun pi iw => pi * iw) p invw)[i] = p[i] * invw[i] :=
      List.getElem_zipWith
    rw [← heq]
    exact List.getElem_mem hiz
  have hsOver_ge : p[i] * invw[i] ≤
      (List.zipWith (fun pi iw => pi * iw) p invw).sum :=
    List.single_le_sum hterms _ hmem
  have hig : i < (List.zipWith
      (fun pd iw => -(List.zipWith (fun pi iw => pi * iw) p invw).sum +
        pd.1 * pd.2 * iw) (p.zip d) invw).length := by
    rw [List.length_zipWith, List.length_zip]
    omega
  rw [List.getD_eq_getElem _ _ hig, List.getElem_zipWith, List.getElem_zip]
  dsimp only
  have hpi : 0 ≤ p[i] := hp _ (List.getElem_mem hip)
  have hinvi : 0 < invw[i] := hinv_pos i hii
  have hdi : d[i] ≤ 1 := by
    rw [← List.getD_eq_getElem d 0 hid]
    exact hd
  have key : p[i] * d[i] * invw[i] ≤ p[i] * invw[i] := by
    nlinarith [mul_nonneg (mul_nonneg hpi hinvi.le) (sub_nonneg.mpr hdi)]
  linarith

/-- The initializer pins a leg with `dᵢ ≤ 1` at `0`. -/
theorem kme_init_zero (p d : List ℝ) (cap : ℝ) (i : ℕ)
    (hip : i < p.length) (hid : i < d.length) (hd : d.getD i 0 ≤ 1) :
    (kme_init p d cap).getD i 0 = 0 := by
  unfold kme_init
  dsimp only
  have hdi : d[i] ≤ 1 := by
    rw [← List.getD_eq_getElem d 0 hid]
    exact hd
  have hf0len : i < (List.zipWith
      (fun pi di =>
        let b := di - 1
        let q := 1 - pi
        if 0 < b then clamp01R ((b * pi - q) / b) else 0) p d).length := by
    rw [List.length_zipWith]
    omega
  have hf0 : (List.zipWith
      (fun pi di =>
        let b := di - 1
        let q := 1 - pi
        if 0 < b then clamp01R ((b * pi - q) / b) else 0) p d).getD i 0 = 0 := by
    rw [List.getD_eq_getElem _ _ hf0len, List.getElem_zipWith]
    dsimp only
    rw [if_neg]
    push_neg
    linarith
  split
  · have himap : i < ((List.zipWith
        (fun pi di =>
          let b := di - 1
          let q := 1 - pi
          if 0 < b then clamp01R ((b * pi - q) / b) else 0) p d).map
        (fun x => x * (cap / (List.zipWith
          (fun pi di =>
            let b := di - 1
            let q := 1 - pi
            if 0 < b then clamp01R ((b * pi - q) / b) else 0) p d).sum))).length := by
      simpa using hf0len
    rw [List.getD_eq_getElem _ _ himap, List.getElem_map]
    have : (List.zipWith
        (fun pi di =>
          let b := di - 1
          let q := 1 - pi
          if 0 < b then clamp01R ((b * pi - q) / b) else 0) p d)[i] = 0 := by
      rw [← List.getD_eq_getElem _ 0 hf0len]
      exact hf0
    rw [this, zero_mul]
  · exact hf0

/-- Length of the allocator result when the inputs match up. -/
theorem kelly_multi_exact_length (p d : List ℝ) (cap : ℝ)
    (hlen : d.length = p.length) (hne : p.length ≠ 0) (hcap : 0 < cap) :
    (kelly_multi_exact p d cap).length = p.length := by
  unfold kelly_multi_exact
  rw [if_neg (by push_neg; exact ⟨hne, hlen⟩)]
  dsimp only
  have hstep : ∀ S : KState,
      (S.f.length = p.length ∧ S.bestF.length = p.length) →
      ((kmeStep p d cap) S).f.length = p.length ∧
      ((kmeStep p d cap) S).bestF.length = p.length := by
    intro S hS
    unfold kmeStep
    dsimp only
    split
    · exact hS
    · have hcl : (kme_proj cap (List.zipWith (fun a b => a + S.step * b) S.f
          (kme_grad p d S.f))).length = p.length := by
        rw [kme_proj_length, List.length_zipWith, kme_grad_length, hlen, hS.1]
        omega
      split
      · exact ⟨hcl, hcl⟩
      · exact hS
  have hbase : (kme_init p d cap).length = p.length ∧
      (kme_init p d cap).length = p.length := by
    rw [kme_init_length, hlen]
    omega
  exact (iterate_inv (kmeStep p d cap)
    (fun S => S.f.length = p.length ∧ S.bestF.length = p.length)
    hstep 300 _ hbase).2

/-- C6: if leg `i` has decimal odds `dᵢ ≤ 1`, the returned allocation
assigns exactly `0` to it: the initializer pins it at `0`, the gradient
component stays nonpositive, and the projection maps nonpositive
components back to `0`. -/
theorem kelly_multi_exact_zero_leg (p d : List ℝ) (cap : ℝ) (i : ℕ)
    (hp : ∀ x ∈ p, 0 ≤ x ∧ x ≤ 1) (hcap : 0 < cap)
    (hlen : d.length = p.length) (hi : i < d.length)
    (hd : d.get ⟨i, hi⟩ ≤ 1)
    (hi2 : i < (kelly_multi_exact p d cap).length) :
    (kelly_multi_exact p d cap).get ⟨i, hi2⟩ = 0 := by
  have hp0 : ∀ x ∈ p, 0 ≤ x := fun x hx => (hp x hx).1
  have hdD : d.getD i 0 ≤ 1 := by
    rw [List.getD_eq_getElem d 0 hi]
    exact hd
  have hip : i < p.length := by omega
  have hstep : ∀ S : KState,
      (S.f.length = p.length ∧ S.bestF.length = p.length ∧
        S.f.getD i 0 = 0 ∧ S.bestF.getD i 0 = 0 ∧ 0 < S.step) →
      ((kmeStep p d cap S).f.length = p.length ∧
        (kmeStep p d cap S).bestF.length = p.length ∧
        (kmeStep p d cap S).f.getD i 0 = 0 ∧
        (kmeStep p d cap S).bestF.getD i 0 = 0 ∧ 0 < (kmeStep p d cap S).step) := by
    intro S hS
    obtain ⟨hfl, hbl, hfz, hbz, hst⟩ := hS
    unfold kmeStep
    dsimp only
    split
    · exact ⟨hfl, hbl, hfz, hbz, hst⟩
    · have hglen : (kme_grad p d S.f).length = p.length := by
        rw [kme_grad_length, hlen, hfl]
        omega
      have hcandlen : (List.zipWith (fun a b => a + S.step * b) S.f
          (kme_grad p d S.f)).length = p.length := by
        rw [List.length_zipWith, hfl, hglen]
        omega
      have hcandz : (List.zipWith (fun a b => a + S.step * b) S.f
          (kme_grad p d S.f)).getD i 0 ≤ 0 := by
        have hin : i < (List.zipWith (fun a b => a + S.step * b) S.f
            (kme_grad p d S.f)).length := by
          rw [hcandlen]
          omega
        rw [List.getD_eq_getElem _ _ hin, List.getElem_zipWith]
        have hfi : S.f[i] = 0 := by
          rw [← List.getD_eq_getElem S.f 0 (by rw [hfl]; omega)]
          exact hfz
        have hgile : (kme_grad p d S.f).getD i 0 ≤ 0 :=
          kme_grad_nonpos p d S.f hp0 i hip hi (by rw [hfl]; omega) hdD
        have hgi : (kme_grad p d S.f)[i] ≤ 0 := by
          rw [← List.getD_eq_getElem _ 0 (by rw [hglen]; omega)]
          exact hgile
        rw [hfi]
        have := mul_nonpos_of_nonneg_of_nonpos hst.le hgi
        linarith
      have hprojz := kme_proj_zero cap hcap _ i hcandz
      have hprojlen : (kme_proj cap (List.zipWith (fun a b => a + S.step * b)
          S.f (kme_grad p d S.f))).length = p.length := by
        rw [kme_proj_length, hcandlen]
      split
      · exact ⟨hprojlen, hprojlen, hprojz, hprojz,
          lt_min (by positivity) one_pos⟩
      · exact ⟨hfl, hbl, hfz, hbz, by positivity⟩
  have hbase : (kme_init p d cap).length = p.length ∧
      (kme_init p d cap).length = p.length ∧
      (kme_init p d cap).getD i 0 = 0 ∧
      (kme_init p d cap).getD i 0 = 0 ∧ (0 : ℝ) < 0.25 := by
    refine ⟨?_, ?_, ?_, ?_, by norm_num⟩
    · rw [kme_init_length, hlen]; omega
    · rw [kme_init_length, hlen]; omega
    · exact kme_init_zero p d cap i hip hi hdD
    · exact kme_init_zero p d cap i hip hi hdD
  have hcond : ¬ (p.length = 0 ∨ d.length ≠ p.length) := by
    push_neg
    exact ⟨by omega, hlen⟩
  have hval : kelly_multi_exact p d cap =
      (Nat.iterate (kmeStep p d cap) 300
        { f := kme_init p d cap, step := 0.25, bestF := kme_init p d cap,
          bestObj := kme_obj p d (kme_init p d cap), done := false }).bestF := by
    unfold kelly_multi_exact
    rw [if_neg hcond]
  have hP := iterate_inv (kmeStep p d cap)
    (fun S => S.f.length = p.length ∧ S.bestF.length = p.length ∧
      S.f.getD i 0 = 0 ∧ S.bestF.getD i 0 = 0 ∧ 0 < S.step)
    hstep 300
    { f := kme_init p d cap, step := 0.25, bestF := kme_init p d cap,
      bestObj := kme_obj p d (kme_init p d cap), done := false }
    hbase
  have h1 : (kelly_multi_exact p d cap).get ⟨i, hi2⟩ =
      (kelly_multi_exact p d cap)[i] := rfl
  rw [h1, ← List.getD_eq_getElem _ 0 hi2, hval]
  exact hP.2.2.2.1

/-- Witness for `kelly_multi_exact_zero_leg`: one leg with `d = 1`
(no profit), `p = 1/2`, `cap = 1`. -/
theorem kelly_multi_exact_zero_leg_witness :
    ∃ h2 : 0 < (kelly_multi_exact [(1 : ℝ) / 2] [1] 1).length,
      (kelly_multi_exact [(1 : ℝ) / 2] [1] 1).get ⟨0, h2⟩ = 0 := by
  have hlen1 : (kelly_multi_exact [(1 : ℝ) / 2] [1] 1).length = 1 :=
    kelly_multi_exact_length [(1 : ℝ) / 2] [1] 1 rfl (by norm_num) one_pos
  refine ⟨by omega, ?_⟩
  exact kelly_multi_exact_zero_leg [(1 : ℝ) / 2] [1] 1 0
    (by intro x hx; simp at hx; subst hx; norm_num) one_pos rfl
    (by norm_num) (by norm_num) _

/-! ### Claim C1: the n = 1 allocator versus the closed-form Kelly
fraction -/

/-- One step of the loop preserves: lengths, consistency of the best
objective with the best point, feasibility, and any lower bound on the
best objective. -/
theorem kmeStep_keeps (p d : List ℝ) (cap : ℝ) (hcap : 0 < cap)
    (hlen : d.length = p.length) (B : ℝ) (S : KState)
    (hS : S.f.length = p.length ∧ S.bestF.length = p.length ∧
      S.bestObj = kme_obj p d S.bestF ∧ Feas cap S.bestF ∧
      ∃ x, S.bestObj = some x ∧ B ≤ x) :
    (kmeStep p d cap S).f.length = p.length ∧
    (kmeStep p d cap S).bestF.length = p.length ∧
    (kmeStep p d cap S).bestObj = kme_obj p d (kmeStep p d cap S).bestF ∧
    Feas cap (kmeStep p d cap S).bestF ∧
    ∃ x, (kmeStep p d cap S).bestObj = some x ∧ B ≤ x := by
  obtain ⟨hfl, hbl, hobj, hfeas, x0, hx0, hBx⟩ := hS
  unfold kmeStep
  dsimp only
  split
  · exact ⟨hfl, hbl, hobj, hfeas, x0, hx0, hBx⟩
  · split
    · next hacc =>
      have hclen : (kme_proj cap (List.zipWith (fun a b => a + S.step * b) S.f
          (kme_grad p d S.f))).length = p.length := by
        rw [kme_proj_length, List.length_zipWith, kme_grad_length, hfl, hlen]
        omega
      refine ⟨hclen, hclen, rfl,
        ⟨(kme_proj_spec cap hcap _).1, (kme_proj_spec cap hcap _).2.1⟩, ?_⟩
      rw [hx0] at hacc
      cases hobj2 : kme_obj p d (kme_proj cap (List.zipWith
          (fun a b => a + S.step * b) S.f (kme_grad p d S.f))) with
      | none => rw [hobj2] at hacc; simp [kme_accepts] at hacc
      | some x1 =>
        rw [hobj2] at hacc
        unfold kme_accepts at hacc
        rw [decide_eq_true_eq] at hacc
        refine ⟨x1, rfl, ?_⟩
        have htol : (0 : ℝ) < tolImprove := by unfold tolImprove; positivity
        linarith
    · exact ⟨hfl, hbl, hobj, hfeas, x0, hx0, hBx⟩

/-- The strict improvement of the first gradient step at
`p = 0.6, d = 2`: `0.6·ln(1.325)` beats `0.6·ln(1.2)` by more than the
line-search tolerance `1e-9` (via `ln(53/48) ≥ 5/53`). -/
theorem first_step_improves :
    (3 : ℝ) / 5 * Real.log (6 / 5) + tolImprove <
      3 / 5 * Real.log (53 / 40) := by
  have hlog53 : (5 : ℝ) / 53 ≤ Real.log (53 / 48) := by
    have h := @Real.log_le_sub_one_of_pos ((48 : ℝ) / 53) (by norm_num)
    have hinv : Real.log ((48 : ℝ) / 53) = -Real.log (53 / 48) := by
      rw [show ((48 : ℝ) / 53) = ((53 : ℝ) / 48)⁻¹ by norm_num, Real.log_inv]
    rw [hinv] at h
    have h2 : (48 : ℝ) / 53 - 1 = -(5 / 53) := by norm_num
    rw [h2] at h
    linarith
  have hlogsum : Real.log ((53 : ℝ) / 40) =
      Real.log (53 / 48) + Real.log (6 / 5) := by
    rw [← Real.log_mul (by norm_num) (by norm_num)]
    norm_num
  have hc : (1 : ℝ) / 10 ^ 9 < 3 / 53 := by norm_num
  unfold tolImprove
  rw [hlogsum]
  nlinarith [hlog53]

/-- C1, counterexample: at the single outcome `p = 3/5`, `d = 2`,
`cap = 1`, the exact allocator does NOT return the closed-form Kelly
fraction `1/5` within `1e-4`.  The loop's objective `p·ln(1 - f + d·f)`
omits the losing branch and increases in `f`, so the very first
gradient step (accepted, to `f = 13/40`) already moves the best point
at least `1/8` above the closed form. -/
theorem kelly_multi_exact_n1_drifts :
    ¬ (|(kelly_multi_exact [(3 : ℝ) / 5] [2] 1).headI -
        kellyFR (3 / 5) 2| ≤ 1 / 10 ^ 4) := by
  intro habs
  have hkF : kellyFR ((3 : ℝ) / 5) 2 = 1 / 5 := by
    unfold kellyFR clamp01R
    norm_num
  have ha : kme_init [(3 : ℝ) / 5] [2] 1 = [1 / 5] := by
    unfold kme_init
    dsimp only
    simp only [List.zipWith, List.sum_cons, List.sum_nil]
    split_ifs with h1 h2 h3 <;> norm_num [clamp01R] at *
  have hb : kme_obj [(3 : ℝ) / 5] [2] [1 / 5] =
      some ((3 / 5) * Real.log (6 / 5)) := by
    unfold kme_obj
    dsimp only
    simp only [List.zipWith, List.sum_cons, List.sum_nil, List.all_cons,
      List.all_nil]
    rw [if_pos]
    · norm_num
    · simp only [Bool.and_eq_true, decide_eq_true_eq, and_true]
      unfold epsW
      norm_num
  have hc : kme_grad [(3 : ℝ) / 5] [2] [1 / 5] = [1 / 2] := by
    unfold kme_grad
    dsimp only
    simp only [List.zipWith, List.zip, List.zipWith_cons_cons, List.sum_cons,
      List.sum_nil]
    norm_num
    split_ifs with h1
    · exfalso
      revert h1
      unfold epsW
      norm_num
    · norm_num
  have hzip : List.zipWith (fun a b => a + (0.25 : ℝ) * b) [1 / 5] [1 / 2] =
      [13 / 40] := by
    simp only [List.zipWith]
    norm_num
  have hd : kme_proj 1 [(13 : ℝ) / 40] = [13 / 40] := by
    unfold kme_proj
    dsimp only
    simp only [List.map, List.sum_cons, List.sum_nil]
    split_ifs with h1 h2 <;> norm_num at *
  have he : kme_obj [(3 : ℝ) / 5] [2] [13 / 40] =
      some ((3 / 5) * Real.log (53 / 40)) := by
    unfold kme_obj
    dsimp only
    simp only [List.zipWith, List.sum_cons, List.sum_nil, List.all_cons,
      List.all_nil]
    rw [if_pos]
    · norm_num
    · simp only [Bool.and_eq_true, decide_eq_true_eq, and_true]
      unfold epsW
      norm_num
  have hacc : kme_accepts (some ((3 : ℝ) / 5 * Real.log (53 / 40)))
      (some ((3 : ℝ) / 5 * Real.log (6 / 5))) = true := by
    unfold kme_accepts
    rw [decide_eq_true_eq]
    exact first_step_improves
  have hQ1 : (kmeStep [(3 : ℝ) / 5] [2] 1
        { f := [1 / 5], step := 0.25, bestF := [1 / 5],
          bestObj := some ((3 / 5) * Real.log (6 / 5)),
          done := false }).f.length = [(3 : ℝ) / 5].length ∧
      (kmeStep [(3 : ℝ) / 5] [2] 1
        { f := [1 / 5], step := 0.25, bestF := [1 / 5],
          bestObj := some ((3 / 5) * Real.log (6 / 5)),
          done := false }).bestF.length = [(3 : ℝ) / 5].length ∧
      (kmeStep [(3 : ℝ) / 5] [2] 1
        { f := [1 / 5], step := 0.25, bestF := [1 / 5],
          bestObj := some ((3 / 5) * Real.log (6 / 5)),
          done := false }).bestObj = kme_obj [(3 : ℝ) / 5] [2]
        (kmeStep [(3 : ℝ) / 5] [2] 1
          { f := [1 / 5], step := 0.25, bestF := [1 / 5],
            bestObj := some ((3 / 5) * Real.log (6 / 5)),
            done := false }).bestF ∧
      Feas 1 (kmeStep [(3 : ℝ) / 5] [2] 1
        { f := [1 / 5], step := 0.25, bestF := [1 / 5],
          bestObj := some ((3 / 5) * Real.log (6 / 5)),
          done := false }).bestF ∧
      ∃ x, (kmeStep [(3 : ℝ) / 5] [2] 1
        { f := [1 / 5], step := 0.25, bestF := [1 / 5],
          bestObj := some ((3 / 5) * Real.log (6 / 5)),
          done := false }).bestObj = some x ∧
        (3 : ℝ) / 5 * Real.log (53 / 40) ≤ x := by
    unfold kmeStep
    dsimp only
    rw [if_neg (by simp)]
    rw [hc, hzip, hd, he, hacc]
    rw [if_pos rfl]
    refine ⟨rfl, rfl, he.symm, ?_, ⟨(3 : ℝ) / 5 * Real.log (53 / 40), rfl,
      le_refl _⟩⟩
    constructor
    · intro x hx
      simp at hx
      subst hx
      norm_num
    · simp
      norm_num
  have hstepQ : ∀ S : KState,
      (S.f.length = [(3 : ℝ) / 5].length ∧
        S.bestF.length = [(3 : ℝ) / 5].length ∧
        S.bestObj = kme_obj [(3 : ℝ) / 5] [2] S.bestF ∧ Feas 1 S.bestF ∧
        ∃ x, S.bestObj = some x ∧ (3 : ℝ) / 5 * Real.log (53 / 40) ≤ x) →
      ((kmeStep [(3 : ℝ) / 5] [2] 1 S).f.length = [(3 : ℝ) / 5].length ∧
        (kmeStep [(3 : ℝ) / 5] [2] 1 S).bestF.length = [(3 : ℝ) / 5].length ∧
        (kmeStep [(3 : ℝ) / 5] [2] 1 S).bestObj =
          kme_obj [(3 : ℝ) / 5] [2] (kmeStep [(3 : ℝ) / 5] [2] 1 S).bestF ∧
        Feas 1 (kmeStep [(3 : ℝ) / 5] [2] 1 S).bestF ∧
        ∃ x, (kmeStep [(3 : ℝ) / 5] [2] 1 S).bestObj = some x ∧
          (3 : ℝ) / 5 * Real.log (53 / 40) ≤ x) :=
    fun S hS => kmeStep_keeps [(3 : ℝ) / 5] [2] 1 one_pos rfl _ S hS
  have hiter := iterate_inv (kmeStep [(3 : ℝ) / 5] [2] 1)
    (fun S => S.f.length = [(3 : ℝ) / 5].length ∧
      S.bestF.length = [(3 : ℝ) / 5].length ∧
      S.bestObj = kme_obj [(3 : ℝ) / 5] [2] S.bestF ∧ Feas 1 S.bestF ∧
      ∃ x, S.bestObj = some x ∧ (3 : ℝ) / 5 * Real.log (53 / 40) ≤ x)
    hstepQ 299 _ hQ1
  have hfin : Nat.iterate (kmeStep [(3 : ℝ) / 5] [2] 1) 300
      { f := [1 / 5], step := 0.25, bestF := [1 / 5],
        bestObj := some ((3 / 5) * Real.log (6 / 5)), done := false } =
      Nat.iterate (kmeStep [(3 : ℝ) / 5] [2] 1) 299
        (kmeStep [(3 : ℝ) / 5] [2] 1
          { f := [1 / 5], step := 0.25, bestF := [1 / 5],
            bestObj := some ((3 / 5) * Real.log (6 / 5)), done := false }) := by
    rw [show (300 : ℕ) = 299 + 1 from rfl, Function.iterate_succ_apply]
  rw [← hfin] at hiter
  obtain ⟨hfl, hbl, hobj, hfeas, x, hx, hBx⟩ := hiter
  obtain ⟨y, hy⟩ := List.length_eq_one.mp (hbl.trans rfl)
  have hy0 : 0 ≤ y := hfeas.1 y (by rw [hy]; exact List.mem_singleton_self y)
  have hobjy : kme_obj [(3 : ℝ) / 5] [2] [y] =
      some ((3 / 5) * Real.log (1 + y)) := by
    unfold kme_obj
    dsimp only
    simp only [List.zipWith, List.sum_cons, List.sum_nil, List.all_cons,
      List.all_nil]
    rw [if_pos]
    · have harg : 1 - (y + 0) + 2 * y = 1 + y := by ring
      rw [harg, add_zero]
    · simp only [Bool.and_eq_true, decide_eq_true_eq, and_true]
      unfold epsW
      have h1 : (1 : ℝ) / 10 ^ 12 < 1 := by norm_num
      nlinarith
  have hxeq : x = (3 / 5) * Real.log (1 + y) := by
    rw [hy, hobjy, hx] at hobj
    exact Option.some_inj.mp hobj
  have hBy : Real.log ((53 : ℝ) / 40) ≤ Real.log (1 + y) := by
    rw [hxeq] at hBx
    linarith
  have h53 : (53 : ℝ) / 40 ≤ 1 + y :=
    (Real.log_le_log_iff (by norm_num) (by linarith)).mp hBy
  have hval : kelly_multi_exact [(3 : ℝ) / 5] [2] 1 =
      (Nat.iterate (kmeStep [(3 : ℝ) / 5] [2] 1) 300
        { f := [1 / 5], step := 0.25, bestF := [1 / 5],
          bestObj := some ((3 / 5) * Real.log (6 / 5)),
          done := false }).bestF := by
    unfold kelly_multi_exact
    rw [if_neg (by norm_num)]
    dsimp only
    rw [ha, hb]
  rw [hkF, hval, hy] at habs
  simp only [List.headI] at habs
  rw [abs_le] at habs
  have := habs.2
  linarith

/-- Projection of a single component exceeding the cap `1`: clamping
and the `theta` subtraction land exactly on `1`. -/
theorem kme_proj_singleton_gt_one (x : ℝ) (hx : 1 < x) :
    kme_proj 1 [x] = [1] := by
  unfold kme_proj
  dsimp only
  simp only [List.map, List.sum_cons, List.sum_nil]
  rw [if_neg (show ¬ x < 0 by linarith)]
  rw [if_neg (show ¬ x + 0 ≤ 1 by push_neg; linarith)]
  have hds : descSort [x] = [x] := List.perm_singleton.mp (descSort_perm [x])
  rw [hds]
  have hrho : projRho 1 [x] = 0 := by
    unfold projRho
    simp only [rhoAux]
    split_ifs <;> simp
  have htheta : projTheta 1 [x] = x - 1 := by
    unfold projTheta
    rw [hrho]
    norm_num [List.take_succ_cons, List.take_zero]
  rw [htheta]
  rw [show x - (x - 1) = 1 by ring]
  norm_num

/-- C1, amended: at `p = 1` (the only single-outcome probability for
which the code's objective and the closed form agree), the allocator
returns exactly the closed-form Kelly fraction `1` for every `d > 1`. -/
theorem kelly_multi_exact_n1_full_prob (dv : ℝ) (hd : 1 < dv) :
    kelly_multi_exact [(1 : ℝ)] [dv] 1 = [1] ∧ kellyFR 1 dv = 1 := by
  have hdv0 : (0 : ℝ) < dv := by linarith
  have hmulinv : dv * dv⁻¹ = 1 := mul_inv_cancel₀ (ne_of_gt hdv0)
  have hinv1 : dv⁻¹ < 1 := by nlinarith
  have hinv0 : 0 < dv⁻¹ := by positivity
  have hεdv : ¬ dv ≤ epsW := by
    unfold epsW
    push_neg
    have h1 : (1 : ℝ) / 10 ^ 12 < 1 := by norm_num
    linarith
  have hkF1 : kellyFR 1 dv = 1 := by
    unfold kellyFR clamp01R
    dsimp only
    have h1 : ((dv - 1) * 1 - (1 - 1)) / (dv - 1) = 1 := by
      rw [show (dv - 1) * 1 - (1 - 1) = dv - 1 by ring]
      exact div_self (by linarith)
    rw [h1]
    norm_num
  have hinit : kme_init [(1 : ℝ)] [dv] 1 = [1] := by
    unfold kme_init
    dsimp only
    simp only [List.zipWith, List.sum_cons, List.sum_nil]
    rw [if_pos (show (0 : ℝ) < dv - 1 by linarith)]
    have h1 : ((dv - 1) * 1 - (1 - 1)) / (dv - 1) = 1 := by
      rw [show (dv - 1) * 1 - (1 - 1) = dv - 1 by ring]
      exact div_self (by linarith)
    rw [h1, show clamp01R 1 = 1 by unfold clamp01R; norm_num]
    rw [if_neg (by norm_num)]
  have hobj1 : kme_obj [(1 : ℝ)] [dv] [1] = some (Real.log dv) := by
    unfold kme_obj
    dsimp only
    simp only [List.zipWith, List.sum_cons, List.sum_nil, List.all_cons,
      List.all_nil]
    rw [show (1 : ℝ) - (1 + 0) + dv * 1 = dv by ring]
    rw [if_pos]
    · rw [one_mul, add_zero]
    · simp only [Bool.and_eq_true, decide_eq_true_eq, and_true]
      push_neg at hεdv
      exact hεdv
  have hgrad : kme_grad [(1 : ℝ)] [dv] [1] = [1 - dv⁻¹] := by
    unfold kme_grad
    dsimp only
    simp only [List.zipWith, List.zip, List.zipWith_cons_cons, List.sum_cons,
      List.sum_nil]
    rw [show (1 : ℝ) - (1 + 0) + dv * 1 = dv by ring]
    rw [if_neg hεdv]
    rw [show (1 : ℝ) / dv = dv⁻¹ by rw [one_div]]
    rw [show (1 : ℝ) * dv⁻¹ + 0 = dv⁻¹ by ring]
    rw [show (1 : ℝ) * dv * dv⁻¹ = 1 by rw [one_mul, hmulinv]]
    rw [show -dv⁻¹ + 1 = 1 - dv⁻¹ by ring]
  have hrej : kme_accepts (some (Real.log dv)) (some (Real.log dv)) = false := by
    unfold kme_accepts
    rw [decide_eq_false_iff_not]
    push_neg
    have htol : (0 : ℝ) < tolImprove := by unfold tolImprove; positivity
    linarith
  have hstepR : ∀ S : KState,
      (S.f = [(1 : ℝ)] ∧ S.bestF = [(1 : ℝ)] ∧
        S.bestObj = some (Real.log dv) ∧ 0 < S.step) →
      ((kmeStep [(1 : ℝ)] [dv] 1 S).f = [(1 : ℝ)] ∧
        (kmeStep [(1 : ℝ)] [dv] 1 S).bestF = [(1 : ℝ)] ∧
        (kmeStep [(1 : ℝ)] [dv] 1 S).bestObj = some (Real.log dv) ∧
        0 < (kmeStep [(1 : ℝ)] [dv] 1 S).step) := by
    intro S hS
    obtain ⟨hf, hb, ho, hs⟩ := hS
    unfold kmeStep
    dsimp only
    split
    · exact ⟨hf, hb, ho, hs⟩
    · rw [hf, ho, hgrad]
      have hzipS : List.zipWith (fun a b => a + S.step * b) [(1 : ℝ)]
          [1 - dv⁻¹] = [1 + S.step * (1 - dv⁻¹)] := by
        simp [List.zipWith]
      rw [hzipS]
      have hx1 : 1 < 1 + S.step * (1 - dv⁻¹) := by nlinarith
      rw [kme_proj_singleton_gt_one _ hx1, hobj1, hrej]
      rw [if_neg (by simp)]
      exact ⟨rfl, hb, rfl, mul_pos hs (by norm_num)⟩
  have hval : kelly_multi_exact [(1 : ℝ)] [dv] 1 =
      (Nat.iterate (kmeStep [(1 : ℝ)] [dv] 1) 300
        { f := [1], step := 0.25, bestF := [1],
          bestObj := some (Real.log dv), done := false }).bestF := by
    unfold kelly_multi_exact
    rw [if_neg (by norm_num)]
    dsimp only
    rw [hinit, hobj1]
  have hR := iterate_inv (kmeStep [(1 : ℝ)] [dv] 1)
    (fun S => S.f = [(1 : ℝ)] ∧ S.bestF = [(1 : ℝ)] ∧
      S.bestObj = some (Real.log dv) ∧ 0 < S.step)
    hstepR 300
    { f := [1], step := 0.25, bestF := [1],
      bestObj := some (Real.log dv), done := false }
    ⟨rfl, rfl, rfl, by norm_num⟩
  exact ⟨by rw [hval]; exact hR.2.1, hkF1⟩

/-- Witness for `kelly_multi_exact_n1_full_prob` at `d = 2`. -/
theorem kelly_multi_exact_n1_full_prob_witness :
    (1 : ℝ) < 2 ∧
    (kelly_multi_exact [(1 : ℝ)] [2] 1 = [1] ∧ kellyFR 1 2 = 1) :=
  ⟨one_lt_two, kelly_multi_exact_n1_full_prob 2 one_lt_two⟩

end EdgeRunner
